import Mathlib

/-!
Verification of the bendy-tracer renderer core: the AABB algebra and the
self-balancing BVH (`src/bvh/mod.rs`), the nearest-hit query, the tiled
accumulation buffer (`src/tracer/buffer.rs`), the tracer configuration
(`src/tracer/mod.rs`) and the mixture PDF sampler
(`src/material/surface.rs`).

Machine scalars (`f32`) are modelled as exact rationals `ℚ`: every claim
settled here is about ordering, sign, counting and algebraic structure, not
about rounding.  Machine integers (`usize`, `u32`) are modelled as `ℕ`;
the subtractions the code performs are only ever taken of smaller from
larger, matching truncated `ℕ` subtraction.
-/

namespace BendyTracer

/-! ## Vectors and axis-aligned boxes (`src/bvh/mod.rs`)

`glam::Vec3A` is modelled componentwise over `ℚ`. -/

/-- Componentwise 3-vector over `ℚ`, modelling `glam::Vec3A`. -/
structure Vec3 where
  x : ℚ
  y : ℚ
  z : ℚ
deriving DecidableEq

/-- Componentwise minimum, modelling `Vec3A::min`. -/
def Vec3.minv (a b : Vec3) : Vec3 :=
  ⟨min a.x b.x, min a.y b.y, min a.z b.z⟩

/-- Componentwise maximum, modelling `Vec3A::max`. -/
def Vec3.maxv (a b : Vec3) : Vec3 :=
  ⟨max a.x b.x, max a.y b.y, max a.z b.z⟩

/-- Componentwise subtraction. -/
def Vec3.sub (a b : Vec3) : Vec3 :=
  ⟨a.x - b.x, a.y - b.y, a.z - b.z⟩

/-- Modelling `a.cmplt(b).all()`: all components strictly less. -/
def Vec3.cmpltAll (a b : Vec3) : Prop :=
  a.x < b.x ∧ a.y < b.y ∧ a.z < b.z

instance (a b : Vec3) : Decidable (a.cmpltAll b) := by
  unfold Vec3.cmpltAll; infer_instance

/-- Axis-aligned bounding box, `Aabb { min, max }` from `src/bvh/mod.rs`. -/
structure Aabb where
  min : Vec3
  max : Vec3
deriving DecidableEq

/-- The `debug_assert!(min.cmplt(max).all())` guard of `Aabb::new`: the
componentwise `min < max` invariant. -/
def Aabb.invariant (b : Aabb) : Prop :=
  b.min.cmpltAll b.max

instance (b : Aabb) : Decidable b.invariant := by
  unfold Aabb.invariant; infer_instance

/-- `Aabb::size`: `self.max - self.min`. -/
def Aabb.size (b : Aabb) : Vec3 :=
  b.max.sub b.min

/-- `Aabb::area`: `size.x * size.y * size.z` (product of extents). -/
def Aabb.area (b : Aabb) : ℚ :=
  (b.size).x * (b.size).y * (b.size).z

/-- `Aabb::union`: `Self::new(self.min.min(other.min), self.max.max(other.max))`. -/
def Aabb.union (b other : Aabb) : Aabb :=
  ⟨b.min.minv other.min, b.max.maxv other.max⟩

/-- `Aabb::intersection`: `Self::new(self.min.max(other.min), self.max.min(other.max))`. -/
def Aabb.intersection (b other : Aabb) : Aabb :=
  ⟨b.min.maxv other.min, b.max.minv other.max⟩

/-- `Aabb::overlap`: `self.intersection(other).area()`. -/
def Aabb.overlap (b other : Aabb) : ℚ :=
  (b.intersection other).area

/-- `Aabb::overlaps`: `self.overlap(other) > 0.0`. -/
def Aabb.overlaps (b other : Aabb) : Prop :=
  0 < b.overlap other

/-- The unit cube `[0,1]³`. -/
def boxA : Aabb :=
  ⟨⟨0, 0, 0⟩, ⟨1, 1, 1⟩⟩

/-- The box `[2,3] × [0,1] × [0,1]`, disjoint from `boxA` along the x axis. -/
def boxB : Aabb :=
  ⟨⟨2, 0, 0⟩, ⟨3, 1, 1⟩⟩

/-- Claim C3 (code bug): `boxA` and `boxB` both satisfy the componentwise
`min < max` invariant of `Aabb::new`, and their intersection is empty, yet
`area(intersection(A, B))` evaluates to `-1 < 0` — the extent along x is
negative — so `overlap(A, B)` is negative, contradicting the claim that the
area degenerates to zero for an empty intersection.  The intersection box
itself violates the `debug_assert!(min.cmplt(max).all())` of `Aabb::new`
that `Aabb::intersection` invokes, so on a debug build the code asserts. -/
theorem c3_overlap_negative :
    boxA.invariant ∧ boxB.invariant ∧
    ¬ (boxA.intersection boxB).invariant ∧
    boxA.overlap boxB = -1 ∧ boxA.overlap boxB < 0 := by
  refine ⟨by decide, by decide, by decide, ?_, ?_⟩
  all_goals
    simp only [boxA, boxB, Aabb.overlap, Aabb.intersection, Aabb.area, Aabb.size,
      Vec3.sub, Vec3.minv, Vec3.maxv]
  all_goals norm_num

/-! ## The BVH (`src/bvh/mod.rs`)

`ObjectData` (`src/bvh/object/mod.rs`) carries flags, a tag, a transform and
a shape; the BVH only ever consults its `bounding_box()` (computed from shape
and transform) and, for light selection, `has_flags`.  The model stores the
bounding box directly as a field `bbox` standing for the result of
`bounding_box()`, the `u32` bitflags as `flags : ℕ`, and an opaque `payload`
standing for the remaining data (tag / transform / shape). -/

/-- Model of `ObjectData`: `bbox` is the value of `bounding_box()`,
`flags` the `ObjectFlags` bits, `payload` the remaining opaque data. -/
structure ObjectData where
  flags : ℕ
  bbox : Aabb
  payload : ℕ
deriving DecidableEq

/-- `ObjectFlags::LIGHT = 0x1` (`src/scene/object/mod.rs`). -/
def LIGHT : ℕ := 0x1

/-- `ObjectData::has_flags`, via bitflags `contains`:
`(self.bits & other.bits) == other.bits`. -/
def ObjectData.has_flags (o : ObjectData) (f : ℕ) : Bool :=
  o.flags &&& f == f

/-- `BvhNode` from `src/bvh/mod.rs`.  The `Empty` variant is omitted: per the
source comment it is "only used as an intermediate value when inserting or
rotating" (a swap placeholder) and is never part of a reachable tree; every
`Empty` arm of the source is `unreachable!()`. -/
inductive BvhNode where
  | leaf (aabb : Aabb) (child : ObjectData)
  | parent (aabb : Aabb) (height : ℕ) (left right : BvhNode)
deriving DecidableEq

/-- `BvhNode::height`: the stored height of a `Parent`, `0` for a `Leaf`. -/
def BvhNode.height : BvhNode → ℕ
  | .leaf _ _ => 0
  | .parent _ h _ _ => h

/-- `BvhNode::aabb`. -/
def BvhNode.aabb : BvhNode → Aabb
  | .leaf a _ => a
  | .parent a _ _ _ => a

/-- `BvhNode::parent(left, right)`: a `Parent` whose box is the union of the
children's boxes and whose stored height is `max(left.height, right.height) + 1`. -/
def BvhNode.mkParent (l r : BvhNode) : BvhNode :=
  .parent (l.aabb.union r.aabb) (max l.height r.height + 1) l r

/-- `BvhNode::balance`: `right.height() as i32 - left.height() as i32`
(`0` for a `Leaf`), over the stored heights. -/
def BvhNode.balance : BvhNode → ℤ
  | .leaf _ _ => 0
  | .parent _ _ l r => (r.height : ℤ) - (l.height : ℤ)

/-- `BvhNode::is_balanced`: `self.balance().abs() <= 1`. -/
def BvhNode.isBalanced (t : BvhNode) : Bool :=
  decide (t.balance.natAbs ≤ 1)

/-- `BvhNode::rotate_right`.  When the pattern (a `Parent` whose left child is
a `Parent`) does not match, the source leaves the swapped-out `Empty` in
place, which is unreachable at every call site; the model returns the node
unchanged there. -/
def BvhNode.rotateRight : BvhNode → BvhNode
  | .parent _ _ (.parent _ _ pl pr) rr => BvhNode.mkParent pl (BvhNode.mkParent pr rr)
  | t => t

/-- `BvhNode::rotate_left` (mirror of `rotate_right`). -/
def BvhNode.rotateLeft : BvhNode → BvhNode
  | .parent _ _ ll (.parent _ _ pl pr) => BvhNode.mkParent (BvhNode.mkParent ll pl) pr
  | t => t

/-- `BvhNode::rotate_right_left`: rotate the right child right in place, then
rotate self left. -/
def BvhNode.rotateRightLeft : BvhNode → BvhNode
  | .parent a h l r => (BvhNode.parent a h l r.rotateRight).rotateLeft
  | t => t

/-- `BvhNode::rotate_left_right`: rotate the left child left in place, then
rotate self right. -/
def BvhNode.rotateLeftRight : BvhNode → BvhNode
  | .parent a h l r => (BvhNode.parent a h l.rotateLeft r).rotateRight
  | t => t

/-- `BvhNode::rebalance`: if unbalanced, dispatch on the sign of the balance
factor and the taller child's balance to one of the four AVL rotations. -/
def BvhNode.rebalance (t : BvhNode) : BvhNode :=
  if t.isBalanced then t
  else
    match t with
    | .parent a h l r =>
      let b := (BvhNode.parent a h l r).balance
      if b < 0 ∧ l.balance ≤ 0 then (BvhNode.parent a h l r).rotateRight
      else if 0 < b ∧ 0 ≤ r.balance then (BvhNode.parent a h l r).rotateLeft
      else if b < 0 ∧ 0 < l.balance then (BvhNode.parent a h l r).rotateLeftRight
      else if 0 < b ∧ r.balance < 0 then (BvhNode.parent a h l r).rotateRightLeft
      else BvhNode.parent a h l r
    | t => t

/-- `BvhNode::insert`.  On a `Parent` the side with the larger overlap with
the inserted box receives the insertion and the box/height are recomputed
(exactly `BvhNode::parent` of the updated children); on a `Leaf` the leaf is
replaced by a parent of the old leaf (left) and the new node (right).  The
source then runs `if !self.is_balanced() { self.rebalance() }`, and
`rebalance` itself returns immediately when balanced, so the model applies
`rebalance` unconditionally. -/
def BvhNode.insert : BvhNode → BvhNode → BvhNode
  | .parent _ _ l r, other =>
    let res :=
      if other.aabb.overlap l.aabb > other.aabb.overlap r.aabb
      then BvhNode.mkParent (l.insert other) r
      else BvhNode.mkParent l (r.insert other)
    res.rebalance
  | .leaf a c, other => (BvhNode.mkParent (.leaf a c) other).rebalance

/-- `Bvh { len, height, root }` from `src/bvh/mod.rs`. -/
structure Bvh where
  len : ℕ
  height : ℕ
  root : Option BvhNode

/-- `FromIterator<ObjectData> for Bvh` over a list: each object is wrapped as
`Leaf { aabb: object.bounding_box(), child: object }` and inserted into the
root (the first becomes the root); `len` counts the iterations, so it is the
list length; the final height is `root.height + 1` (`0` when empty). -/
def Bvh.fromList (objs : List ObjectData) : Bvh :=
  let root := objs.foldl
    (fun root o =>
      match root with
      | some r => some (r.insert (.leaf o.bbox o))
      | none => some (.leaf o.bbox o))
    none
  { len := objs.length
    height := match root with | some n => n.height + 1 | none => 0
    root := root }

/-- The real (recomputed) height of a node, independent of the stored field. -/
def BvhNode.realHeight : BvhNode → ℕ
  | .leaf _ _ => 0
  | .parent _ _ l r => max l.realHeight r.realHeight + 1

/-- Structural AVL balance over real heights: every `Parent` has children
whose real heights differ by at most one. -/
def BvhNode.balancedB : BvhNode → Bool
  | .leaf _ _ => true
  | .parent _ _ l r =>
    decide (l.realHeight ≤ r.realHeight + 1 ∧ r.realHeight ≤ l.realHeight + 1)
      && l.balancedB && r.balancedB

/-- Balance of the whole container: its root (if any) is balanced. -/
def Bvh.rootBalancedB (b : Bvh) : Bool :=
  match b.root with
  | some n => n.balancedB
  | none => true

/-- The AVL well-formedness invariant: stored heights are consistent and
every parent is height-balanced. -/
inductive BvhNode.AVL : BvhNode → Prop
  | leaf (a : Aabb) (c : ObjectData) : BvhNode.AVL (.leaf a c)
  | parent (a : Aabb) (h : ℕ) (l r : BvhNode) :
      BvhNode.AVL l → BvhNode.AVL r →
      h = max l.height r.height + 1 →
      l.height ≤ r.height + 1 → r.height ≤ l.height + 1 →
      BvhNode.AVL (.parent a h l r)

theorem BvhNode.height_mkParent (l r : BvhNode) :
    (BvhNode.mkParent l r).height = max l.height r.height + 1 := rfl

theorem BvhNode.avl_mkParent {l r : BvhNode} (hl : l.AVL) (hr : r.AVL)
    (d1 : l.height ≤ r.height + 1) (d2 : r.height ≤ l.height + 1) :
    (BvhNode.mkParent l r).AVL :=
  BvhNode.AVL.parent _ _ _ _ hl hr rfl d1 d2

/-- A node of positive stored height under `AVL` is a parent. -/
theorem BvhNode.avl_pos_height {t : BvhNode} (ht : t.AVL) (hpos : 0 < t.height) :
    ∃ a h l r, t = .parent a h l r := by
  cases ht with
  | leaf a c => simp [BvhNode.height] at hpos
  | parent a h l r hl hr hh d1 d2 => exact ⟨a, h, l, r, rfl⟩

/-- Under `AVL`, the stored height is the real height. -/
theorem BvhNode.avl_realHeight {t : BvhNode} (ht : t.AVL) :
    t.realHeight = t.height := by
  induction ht with
  | leaf a c => rfl
  | parent a h l r hl hr hh d1 d2 ihl ihr =>
    simp [BvhNode.realHeight, BvhNode.height, ihl, ihr, hh]

/-- Under `AVL`, the structural balance predicate holds. -/
theorem BvhNode.avl_balancedB {t : BvhNode} (ht : t.AVL) :
    t.balancedB = true := by
  induction ht with
  | leaf a c => rfl
  | parent a h l r hl hr hh d1 d2 ihl ihr =>
    simp [BvhNode.balancedB, ihl, ihr, BvhNode.avl_realHeight hl,
      BvhNode.avl_realHeight hr, d1, d2]

@[simp] theorem BvhNode.height_leaf (a : Aabb) (c : ObjectData) :
    (BvhNode.leaf a c).height = 0 := rfl

@[simp] theorem BvhNode.height_parent (a : Aabb) (h : ℕ) (l r : BvhNode) :
    (BvhNode.parent a h l r).height = h := rfl

@[simp] theorem BvhNode.balance_parent (a : Aabb) (h : ℕ) (l r : BvhNode) :
    (BvhNode.parent a h l r).balance = (r.height : ℤ) - (l.height : ℤ) := rfl

@[simp] theorem BvhNode.mkParent_eq (l r : BvhNode) :
    BvhNode.mkParent l r = .parent (l.aabb.union r.aabb) (max l.height r.height + 1) l r := rfl

/-- A balanced node is left unchanged by `rebalance`. -/
theorem BvhNode.rebalance_of_balanced {t : BvhNode} (h : t.balance.natAbs ≤ 1) :
    t.rebalance = t := by
  unfold BvhNode.rebalance
  simp [BvhNode.isBalanced, h]

/-- Reduction of `rebalance` on a literal `Parent`. -/
theorem BvhNode.rebalance_parent (a : Aabb) (h : ℕ) (l r : BvhNode) :
    (BvhNode.parent a h l r).rebalance =
      if (BvhNode.parent a h l r).isBalanced then BvhNode.parent a h l r
      else
        if (BvhNode.parent a h l r).balance < 0 ∧ l.balance ≤ 0 then
          (BvhNode.parent a h l r).rotateRight
        else if 0 < (BvhNode.parent a h l r).balance ∧ 0 ≤ r.balance then
          (BvhNode.parent a h l r).rotateLeft
        else if (BvhNode.parent a h l r).balance < 0 ∧ 0 < l.balance then
          (BvhNode.parent a h l r).rotateLeftRight
        else if 0 < (BvhNode.parent a h l r).balance ∧ r.balance < 0 then
          (BvhNode.parent a h l r).rotateRightLeft
        else BvhNode.parent a h l r := rfl

/-- Dispatch: a doubly left-heavy parent whose left child is not right-heavy
is rotated right. -/
theorem BvhNode.rebalance_rr (a : Aabb) (h : ℕ) (l r : BvhNode)
    (hb : (r.height : ℤ) - l.height < -1) (hlb : l.balance ≤ 0) :
    (BvhNode.parent a h l r).rebalance = (BvhNode.parent a h l r).rotateRight := by
  rw [BvhNode.rebalance_parent]
  rw [if_neg (by simp [BvhNode.isBalanced]; omega)]
  rw [if_pos ⟨by simp only [BvhNode.balance_parent]; omega, hlb⟩]

/-- Dispatch: a doubly left-heavy parent whose left child is right-heavy gets
the left-right double rotation. -/
theorem BvhNode.rebalance_lr (a : Aabb) (h : ℕ) (l r : BvhNode)
    (hb : (r.height : ℤ) - l.height < -1) (hlb : 0 < l.balance) :
    (BvhNode.parent a h l r).rebalance = (BvhNode.parent a h l r).rotateLeftRight := by
  rw [BvhNode.rebalance_parent]
  rw [if_neg (by simp [BvhNode.isBalanced]; omega)]
  rw [if_neg (by rintro ⟨-, hc⟩; omega)]
  rw [if_neg (by rintro ⟨hc, -⟩; simp only [BvhNode.balance_parent] at hc; omega)]
  rw [if_pos ⟨by simp only [BvhNode.balance_parent]; omega, hlb⟩]

/-- Dispatch: a doubly right-heavy parent whose right child is not left-heavy
is rotated left. -/
theorem BvhNode.rebalance_ll (a : Aabb) (h : ℕ) (l r : BvhNode)
    (hb : 1 < (r.height : ℤ) - l.height) (hrb : 0 ≤ r.balance) :
    (BvhNode.parent a h l r).rebalance = (BvhNode.parent a h l r).rotateLeft := by
  rw [BvhNode.rebalance_parent]
  rw [if_neg (by simp [BvhNode.isBalanced]; omega)]
  rw [if_neg (by rintro ⟨hc, -⟩; simp only [BvhNode.balance_parent] at hc; omega)]
  rw [if_pos ⟨by simp only [BvhNode.balance_parent]; omega, hrb⟩]

/-- Dispatch: a doubly right-heavy parent whose right child is left-heavy gets
the right-left double rotation. -/
theorem BvhNode.rebalance_rl (a : Aabb) (h : ℕ) (l r : BvhNode)
    (hb : 1 < (r.height : ℤ) - l.height) (hrb : r.balance < 0) :
    (BvhNode.parent a h l r).rebalance = (BvhNode.parent a h l r).rotateRightLeft := by
  rw [BvhNode.rebalance_parent]
  rw [if_neg (by simp [BvhNode.isBalanced]; omega)]
  rw [if_neg (by rintro ⟨hc, -⟩; simp only [BvhNode.balance_parent] at hc; omega)]
  rw [if_neg (by rintro ⟨-, hc⟩; omega)]
  rw [if_neg (by rintro ⟨hc, -⟩; simp only [BvhNode.balance_parent] at hc; omega)]
  rw [if_pos ⟨by simp only [BvhNode.balance_parent]; omega, hrb⟩]

/-- Left-heavy rotation case: combining an AVL subtree `l` two levels taller
than AVL subtree `r` and rebalancing yields an AVL tree of height `l.height`
or `l.height + 1`. -/
theorem BvhNode.rebalance_diff2_left {l r : BvhNode} (hl : l.AVL) (hr : r.AVL)
    (hd : l.height = r.height + 2) :
    ((BvhNode.mkParent l r).rebalance).AVL ∧
      (((BvhNode.mkParent l r).rebalance).height = l.height ∨
        ((BvhNode.mkParent l r).rebalance).height = l.height + 1) := by
  obtain ⟨la, lh, pl, pr, rfl⟩ := BvhNode.avl_pos_height hl (by simp [hd])
  have hlh : lh = r.height + 2 := by simpa using hd
  cases hl with
  | parent _ _ _ _ hpl hpr hlheq d1 d2 =>
  have hlheq' : lh = max pl.height pr.height + 1 := hlheq
  by_cases hbl : (BvhNode.parent la lh pl pr).balance ≤ 0
  · -- left child not right-heavy: single right rotation
    have hbl2 : pr.height ≤ pl.height := by
      have h0 := hbl
      simp only [BvhNode.balance_parent] at h0
      omega
    have hplh : pl.height = r.height + 1 := by omega
    have hprh : r.height ≤ pr.height := by omega
    rw [BvhNode.mkParent_eq, BvhNode.rebalance_rr _ _ _ _ (by simp; omega) hbl]
    unfold BvhNode.rotateRight
    constructor
    · exact BvhNode.avl_mkParent hpl
        (BvhNode.avl_mkParent hpr hr (by omega) (by omega))
        (by simp [BvhNode.mkParent]; omega) (by simp [BvhNode.mkParent]; omega)
    · simp [BvhNode.mkParent, hplh]
      omega
  · -- left child right-heavy: left-right double rotation
    have hbl' : 0 < (BvhNode.parent la lh pl pr).balance := by omega
    have hbl2 : pl.height < pr.height := by
      have h0 := hbl'
      simp only [BvhNode.balance_parent] at h0
      omega
    have hprh : pr.height = r.height + 1 := by omega
    have hplh : pl.height = r.height := by omega
    obtain ⟨pra, prh, prl, prr, rfl⟩ := BvhNode.avl_pos_height hpr (by simp [hprh])
    have hprh2 : prh = r.height + 1 := by simpa using hprh
    cases hpr with
    | parent _ _ _ _ hprl hprr hpr_eq e1 e2 =>
    have hpr_eq' : prh = max prl.height prr.height + 1 := hpr_eq
    rw [BvhNode.mkParent_eq, BvhNode.rebalance_lr _ _ _ _ (by simp; omega) hbl']
    unfold BvhNode.rotateLeftRight BvhNode.rotateLeft BvhNode.rotateRight
    constructor
    · exact BvhNode.avl_mkParent
        (BvhNode.avl_mkParent hpl hprl (by omega) (by omega))
        (BvhNode.avl_mkParent hprr hr (by omega) (by omega))
        (by simp [BvhNode.mkParent]; omega) (by simp [BvhNode.mkParent]; omega)
    · simp [BvhNode.mkParent, hplh]
      omega

/-- Right-heavy rotation case, mirror of `rebalance_diff2_left`. -/
theorem BvhNode.rebalance_diff2_right {l r : BvhNode} (hl : l.AVL) (hr : r.AVL)
    (hd : r.height = l.height + 2) :
    ((BvhNode.mkParent l r).rebalance).AVL ∧
      (((BvhNode.mkParent l r).rebalance).height = r.height ∨
        ((BvhNode.mkParent l r).rebalance).height = r.height + 1) := by
  obtain ⟨ra, rh, rl, rr, rfl⟩ := BvhNode.avl_pos_height hr (by simp [hd])
  have hrh : rh = l.height + 2 := by simpa using hd
  cases hr with
  | parent _ _ _ _ hrl hrr hrheq d1 d2 =>
  have hrheq' : rh = max rl.height rr.height + 1 := hrheq
  by_cases hbr : 0 ≤ (BvhNode.parent ra rh rl rr).balance
  · -- right child not left-heavy: single left rotation
    have hbr2 : rl.height ≤ rr.height := by
      have h0 := hbr
      simp only [BvhNode.balance_parent] at h0
      omega
    have hrrh : rr.height = l.height + 1 := by omega
    have hrlh : l.height ≤ rl.height := by omega
    rw [BvhNode.mkParent_eq, BvhNode.rebalance_ll _ _ _ _ (by simp; omega) hbr]
    unfold BvhNode.rotateLeft
    constructor
    · exact BvhNode.avl_mkParent
        (BvhNode.avl_mkParent hl hrl (by omega) (by omega)) hrr
        (by simp [BvhNode.mkParent]; omega) (by simp [BvhNode.mkParent]; omega)
    · simp [BvhNode.mkParent, hrrh]
      omega
  · -- right child left-heavy: right-left double rotation
    have hbr' : (BvhNode.parent ra rh rl rr).balance < 0 := by omega
    have hbr2 : rr.height < rl.height := by
      have h0 := hbr'
      simp only [BvhNode.balance_parent] at h0
      omega
    have hrlh : rl.height = l.height + 1 := by omega
    have hrrh : rr.height = l.height := by omega
    obtain ⟨rla, rlh, rll, rlr, rfl⟩ := BvhNode.avl_pos_height hrl (by simp [hrlh])
    have hrlh2 : rlh = l.height + 1 := by simpa using hrlh
    cases hrl with
    | parent _ _ _ _ hrll hrlr hrl_eq e1 e2 =>
    have hrl_eq' : rlh = max rll.height rlr.height + 1 := hrl_eq
    rw [BvhNode.mkParent_eq, BvhNode.rebalance_rl _ _ _ _ (by simp; omega) hbr']
    unfold BvhNode.rotateRightLeft BvhNode.rotateRight BvhNode.rotateLeft
    constructor
    · exact BvhNode.avl_mkParent
        (BvhNode.avl_mkParent hl hrll (by omega) (by omega))
        (BvhNode.avl_mkParent hrlr hrr (by omega) (by omega))
        (by simp [BvhNode.mkParent]; omega) (by simp [BvhNode.mkParent]; omega)
    · simp [BvhNode.mkParent, hrlh]
      omega

/-- Inserting a fresh leaf into an AVL tree yields an AVL tree whose height
grows by at most one (AVL insertion correctness for `BvhNode::insert`). -/
theorem BvhNode.insert_avl {t : BvhNode} (other : BvhNode) (ht : t.AVL)
    (hother : other.AVL) (hoh : other.height = 0) :
    (t.insert other).AVL ∧
      (t.height ≤ (t.insert other).height ∧
        (t.insert other).height ≤ t.height + 1) := by
  induction t with
  | leaf a c =>
    have hred : ((BvhNode.leaf a c).insert other) =
        (BvhNode.mkParent (.leaf a c) other).rebalance := rfl
    have hbal : (BvhNode.mkParent (.leaf a c) other).balance.natAbs ≤ 1 := by
      simp [BvhNode.mkParent, BvhNode.balance, hoh]
    rw [hred, BvhNode.rebalance_of_balanced hbal]
    refine ⟨BvhNode.avl_mkParent (BvhNode.AVL.leaf a c) hother
      (by simp [hoh]) (by simp [hoh]), ?_⟩
    simp [BvhNode.mkParent, hoh]
  | parent a h l r ihl ihr =>
    cases ht with
    | parent _ _ _ _ hlavl hravl hheq d1 d2 =>
    obtain ⟨ihlA, ihlH1, ihlH2⟩ := ihl hlavl
    obtain ⟨ihrA, ihrH1, ihrH2⟩ := ihr hravl
    have hred : ((BvhNode.parent a h l r).insert other) =
        (if other.aabb.overlap l.aabb > other.aabb.overlap r.aabb
          then BvhNode.mkParent (l.insert other) r
          else BvhNode.mkParent l (r.insert other)).rebalance := rfl
    rw [hred]
    by_cases hside : other.aabb.overlap l.aabb > other.aabb.overlap r.aabb
    · rw [if_pos hside]
      by_cases hdiff : (l.insert other).height = r.height + 2
      · obtain ⟨hA, hH⟩ := BvhNode.rebalance_diff2_left ihlA hravl hdiff
        refine ⟨hA, ?_, ?_⟩ <;> (simp only [BvhNode.height_parent]; omega)
      · have hbal : (BvhNode.mkParent (l.insert other) r).balance.natAbs ≤ 1 := by
          simp [BvhNode.mkParent, BvhNode.balance]
          omega
        rw [BvhNode.rebalance_of_balanced hbal]
        refine ⟨BvhNode.avl_mkParent ihlA hravl (by omega) (by omega), ?_⟩
        simp [BvhNode.mkParent]
        omega
    · rw [if_neg hside]
      by_cases hdiff : (r.insert other).height = l.height + 2
      · obtain ⟨hA, hH⟩ := BvhNode.rebalance_diff2_right hlavl ihrA hdiff
        refine ⟨hA, ?_, ?_⟩ <;> (simp only [BvhNode.height_parent]; omega)
      · have hbal : (BvhNode.mkParent l (r.insert other)).balance.natAbs ≤ 1 := by
          simp [BvhNode.mkParent, BvhNode.balance]
          omega
        rw [BvhNode.rebalance_of_balanced hbal]
        refine ⟨BvhNode.avl_mkParent hlavl ihrA (by omega) (by omega), ?_⟩
        simp [BvhNode.mkParent]
        omega

/-- The fold of `FromIterator<ObjectData> for Bvh` keeps the root AVL. -/
theorem Bvh.foldl_avl (objs : List ObjectData) (acc : Option BvhNode)
    (hacc : ∀ n, acc = some n → n.AVL) :
    ∀ n,
      objs.foldl
          (fun root o =>
            match root with
            | some r => some (r.insert (.leaf o.bbox o))
            | none => some (.leaf o.bbox o))
          acc = some n →
        n.AVL := by
  induction objs generalizing acc with
  | nil => simpa using hacc
  | cons o rest ih =>
    intro n hn
    refine ih _ ?_ n (by simpa using hn)
    intro m hm
    cases acc with
    | none =>
      simp only [Option.some.injEq] at hm
      subst hm
      exact BvhNode.AVL.leaf _ _
    | some r =>
      simp only [Option.some.injEq] at hm
      subst hm
      exact (BvhNode.insert_avl _ (hacc r rfl) (BvhNode.AVL.leaf _ _) rfl).1

theorem Bvh.fromList_root (objs : List ObjectData) :
    (Bvh.fromList objs).root =
      objs.foldl
        (fun root o =>
          match root with
          | some r => some (r.insert (.leaf o.bbox o))
          | none => some (.leaf o.bbox o))
        none := rfl

/-- Claim C2: after building a `Bvh` from any sequence of `N` objects via
`FromIterator` (repeated `BvhNode::insert`), the container's `len` equals
`N` and every internal `Parent` node of the resulting tree has children whose
(real) heights differ by at most one. -/
theorem c2_fromList_balanced_count (objs : List ObjectData) :
    (Bvh.fromList objs).len = objs.length ∧
      (Bvh.fromList objs).rootBalancedB = true := by
  refine ⟨rfl, ?_⟩
  unfold Bvh.rootBalancedB
  cases hr : (Bvh.fromList objs).root with
  | none => rfl
  | some n =>
    exact BvhNode.avl_balancedB
      (Bvh.foldl_avl objs none (by simp) n ((Bvh.fromList_root objs) ▸ hr))

/-! ## BVH iteration (`Iter` in `src/bvh/mod.rs`) and claim C9 -/

/-- The list of primitives at the leaves of a subtree, in structural order. -/
def BvhNode.leaves : BvhNode → List ObjectData
  | .leaf _ c => [c]
  | .parent _ _ l r => l.leaves ++ r.leaves

/-- The number of leaves of a subtree. -/
def BvhNode.leafCount : BvhNode → ℕ
  | .leaf _ _ => 1
  | .parent _ _ l r => l.leafCount + r.leafCount

@[simp] theorem BvhNode.leafCount_pos (t : BvhNode) : 0 < t.leafCount := by
  induction t with
  | leaf a c => simp [BvhNode.leafCount]
  | parent a h l r ihl ihr => simp [BvhNode.leafCount]; omega

theorem BvhNode.length_leaves (t : BvhNode) : t.leaves.length = t.leafCount := by
  induction t with
  | leaf a c => rfl
  | parent a h l r ihl ihr => simp [BvhNode.leaves, BvhNode.leafCount, ihl, ihr]

/-- The inner loop of `Iter::next`: starting from a popped node, descend into
the child of smaller (stored) height, pushing the other child, until a leaf's
primitive is produced; returns the primitive and the remaining stack. -/
def BvhNode.descend : BvhNode → List BvhNode → ObjectData × List BvhNode
  | .leaf _ c, st => (c, st)
  | .parent _ _ l r, st =>
    if l.height < r.height then BvhNode.descend l (r :: st) else BvhNode.descend r (l :: st)

/-- Draining the `Iter` stack: each `next` pops a node and runs `descend`.
The fuel argument bounds the number of emitted primitives; the real iterator
terminates because each step removes one leaf, and `iterList` below passes
exactly the total leaf count as fuel. -/
def iterGo : ℕ → List BvhNode → List ObjectData
  | 0, _ => []
  | _ + 1, [] => []
  | fuel + 1, n :: rest =>
    (n.descend rest).1 :: iterGo fuel (n.descend rest).2

/-- `Bvh::iter` / `IntoIterator for &Bvh`: the stack starts as `[root]`. -/
def Bvh.iterList (b : Bvh) : List ObjectData :=
  match b.root with
  | none => []
  | some n => iterGo n.leafCount [n]

/-- Total leaf count of a stack. -/
def stackCount (st : List BvhNode) : ℕ := (st.map BvhNode.leafCount).sum

/-- Multiset of primitives in a stack. -/
def stackLeaves (st : List BvhNode) : Multiset ObjectData :=
  (st.map fun n => (n.leaves : Multiset ObjectData)).sum

theorem BvhNode.descend_spec (t : BvhNode) :
    ∀ st : List BvhNode,
      (t.descend st).1 ::ₘ stackLeaves (t.descend st).2 =
          (t.leaves : Multiset ObjectData) + stackLeaves st ∧
        stackCount (t.descend st).2 + 1 = t.leafCount + stackCount st := by
  induction t with
  | leaf a c =>
    intro st
    constructor
    all_goals
      simp [BvhNode.descend, BvhNode.leaves, BvhNode.leafCount, stackLeaves, stackCount]
    all_goals omega
  | parent a h l r ihl ihr =>
    intro st
    unfold BvhNode.descend
    by_cases hlt : l.height < r.height
    · rw [if_pos hlt]
      obtain ⟨p1, p2⟩ := ihl (r :: st)
      constructor
      · rw [p1]
        simp [stackLeaves, BvhNode.leaves, ← Multiset.coe_add]
        abel
      · simp [stackCount, BvhNode.leafCount] at p2 ⊢
        omega
    · rw [if_neg hlt]
      obtain ⟨p1, p2⟩ := ihr (l :: st)
      constructor
      · rw [p1]
        simp [stackLeaves, BvhNode.leaves, ← Multiset.coe_add]
        abel
      · simp [stackCount, BvhNode.leafCount] at p2 ⊢
        omega

/-- With enough fuel, draining the stack yields exactly its leaf multiset. -/
theorem iterGo_spec (fuel : ℕ) :
    ∀ st : List BvhNode, stackCount st ≤ fuel →
      (iterGo fuel st : Multiset ObjectData) = stackLeaves st := by
  induction fuel with
  | zero =>
    intro st hst
    cases st with
    | nil => simp [iterGo, stackLeaves]
    | cons n rest =>
      exfalso
      have := BvhNode.leafCount_pos n
      simp [stackCount] at hst
      omega
  | succ fuel ih =>
    intro st hst
    cases st with
    | nil => simp [iterGo, stackLeaves]
    | cons n rest =>
      obtain ⟨p1, p2⟩ := BvhNode.descend_spec n rest
      have hcount : stackCount (n.descend rest).2 ≤ fuel := by
        simp [stackCount, BvhNode.leafCount] at p2 hst ⊢
        omega
      calc (iterGo (fuel + 1) (n :: rest) : Multiset ObjectData)
          = (n.descend rest).1 ::ₘ (iterGo fuel (n.descend rest).2 : Multiset ObjectData) := by
            simp [iterGo]
        _ = (n.descend rest).1 ::ₘ stackLeaves (n.descend rest).2 := by rw [ih _ hcount]
        _ = (n.leaves : Multiset ObjectData) + stackLeaves rest := p1
        _ = stackLeaves (n :: rest) := by simp [stackLeaves]

/-- A right rotation reorders the tree but keeps the exact leaf sequence. -/
theorem BvhNode.leaves_rotateRight (t : BvhNode) : t.rotateRight.leaves = t.leaves := by
  cases t with
  | leaf a c => rfl
  | parent a h l r =>
    cases l with
    | leaf la lc => rfl
    | parent la lh pl pr =>
      simp [BvhNode.rotateRight, BvhNode.mkParent, BvhNode.leaves, List.append_assoc]

/-- A left rotation keeps the exact leaf sequence. -/
theorem BvhNode.leaves_rotateLeft (t : BvhNode) : t.rotateLeft.leaves = t.leaves := by
  cases t with
  | leaf a c => rfl
  | parent a h l r =>
    cases r with
    | leaf ra rc => rfl
    | parent ra rh pl pr =>
      simp [BvhNode.rotateLeft, BvhNode.mkParent, BvhNode.leaves, List.append_assoc]

theorem BvhNode.leaves_rotateRightLeft (t : BvhNode) :
    t.rotateRightLeft.leaves = t.leaves := by
  cases t with
  | leaf a c => rfl
  | parent a h l r =>
    simp [BvhNode.rotateRightLeft, BvhNode.leaves_rotateLeft, BvhNode.leaves,
      BvhNode.leaves_rotateRight]

theorem BvhNode.leaves_rotateLeftRight (t : BvhNode) :
    t.rotateLeftRight.leaves = t.leaves := by
  cases t with
  | leaf a c => rfl
  | parent a h l r =>
    simp [BvhNode.rotateLeftRight, BvhNode.leaves_rotateRight, BvhNode.leaves,
      BvhNode.leaves_rotateLeft]

/-- Rebalancing (any of the four rotations) keeps the exact leaf sequence. -/
theorem BvhNode.leaves_rebalance (t : BvhNode) : t.rebalance.leaves = t.leaves := by
  cases t with
  | leaf a c => rfl
  | parent a h l r =>
    rw [BvhNode.rebalance_parent]
    split_ifs <;>
      simp [BvhNode.leaves_rotateRight, BvhNode.leaves_rotateLeft,
        BvhNode.leaves_rotateRightLeft, BvhNode.leaves_rotateLeftRight]

/-- Insertion adds exactly the inserted node's primitives (as a multiset). -/
theorem BvhNode.leaves_insert (t other : BvhNode) :
    ((t.insert other).leaves : Multiset ObjectData) = ↑t.leaves + ↑other.leaves := by
  induction t with
  | leaf a c =>
    have hred : ((BvhNode.leaf a c).insert other) =
        (BvhNode.mkParent (.leaf a c) other).rebalance := rfl
    rw [hred, BvhNode.leaves_rebalance]
    simp [BvhNode.mkParent, BvhNode.leaves, ← Multiset.coe_add]
  | parent a h l r ihl ihr =>
    have hred : ((BvhNode.parent a h l r).insert other) =
        (if other.aabb.overlap l.aabb > other.aabb.overlap r.aabb
          then BvhNode.mkParent (l.insert other) r
          else BvhNode.mkParent l (r.insert other)).rebalance := rfl
    rw [hred]
    by_cases hside : other.aabb.overlap l.aabb > other.aabb.overlap r.aabb
    · rw [if_pos hside, BvhNode.leaves_rebalance]
      simp [BvhNode.mkParent, BvhNode.leaves, ← Multiset.coe_add, ihl]
      abel
    · rw [if_neg hside, BvhNode.leaves_rebalance]
      simp [BvhNode.mkParent, BvhNode.leaves, ← Multiset.coe_add, ihr]
      abel

/-- Leaf multiset of an optional root. -/
def optLeaves : Option BvhNode → Multiset ObjectData
  | some n => ↑n.leaves
  | none => 0

/-- The construction fold accumulates exactly the inserted primitives. -/
theorem Bvh.foldl_leaves (objs : List ObjectData) (acc : Option BvhNode) :
    optLeaves
        (objs.foldl
          (fun root o =>
            match root with
            | some r => some (r.insert (.leaf o.bbox o))
            | none => some (.leaf o.bbox o))
          acc) =
      optLeaves acc + ↑objs := by
  induction objs generalizing acc with
  | nil => simp
  | cons o rest ih =>
    rw [List.foldl_cons, ih]
    cases acc with
    | none =>
      simp [optLeaves, BvhNode.leaves]
    | some r =>
      simp [optLeaves, BvhNode.leaves_insert, BvhNode.leaves, ← Multiset.coe_add,
        ← Multiset.cons_coe, Multiset.singleton_add]
      rw [← Multiset.singleton_add]
      abel

/-- Claim C9: iterating the `Bvh` built from any input list yields exactly
`len` primitives, and the yielded primitives are a permutation of the
inserted input — each inserted primitive appears exactly once, irrespective
of order; in particular the AVL rotations performed during construction never
change which primitives are present. -/
theorem c9_iter_complete (objs : List ObjectData) :
    (Bvh.fromList objs).iterList.Perm objs ∧
      (Bvh.fromList objs).iterList.length = (Bvh.fromList objs).len := by
  have hfold := Bvh.foldl_leaves objs none
  rw [← Bvh.fromList_root objs] at hfold
  have hperm : ((Bvh.fromList objs).iterList : Multiset ObjectData) = ↑objs := by
    unfold Bvh.iterList
    cases hr : (Bvh.fromList objs).root with
    | none =>
      rw [hr] at hfold
      simp [optLeaves] at hfold
      simpa using hfold
    | some n =>
      rw [hr] at hfold
      simp only [optLeaves, Multiset.empty_eq_zero, zero_add] at hfold
      rw [iterGo_spec n.leafCount [n] (by simp [stackCount])]
      simpa [stackLeaves] using hfold
  have hp := Multiset.coe_eq_coe.mp hperm
  exact ⟨hp, by rw [hp.length_eq]; rfl⟩

/-! ## Nearest-hit query (`BvhNode::hit` / `Bvh::hit`) and claim C1

The query is analysed for one fixed ray, so the slab test `aabb.hit(ray, ·)`
of a node becomes a predicate `gate : Clip → Bool` on clips, and a leaf's
`child.hit(ray, ·)` (`ObjectData::hit`, dispatching to the sphere / rect /
cuboid intersection of `src/bvh/object/`) becomes a function
`Clip → Option HitManifold`.  Of the `Manifold` record only the ray
parameter `t` matters to the query; the remaining fields are kept as an
opaque payload so distinct manifolds stay distinguishable. -/

/-- `Clip { min, max }` from `src/tracer/ray.rs`. -/
structure Clip where
  min : ℚ
  max : ℚ
deriving DecidableEq

/-- The slice of `Manifold` the BVH query inspects: the parameter `t` plus an
opaque payload standing for the other fields. -/
structure HitManifold where
  t : ℚ
  payload : ℕ
deriving DecidableEq

/-- The `match (left, right)` arm of `BvhNode::hit` on a `Parent`: take the
child result with the smaller `t`; on a tie the right result is returned
(`left.t < right.t` picks left, otherwise right). -/
def combineHit : Option HitManifold → Option HitManifold → Option HitManifold
  | none, none => none
  | some m, none => some m
  | none, some m => some m
  | some l, some r => if l.t < r.t then some l else some r

/-- A BVH subtree as seen by the query for the fixed ray. -/
inductive HitTree where
  | leaf (gate : Clip → Bool) (hitf : Clip → Option HitManifold)
  | parent (gate : Clip → Bool) (left right : HitTree)

/-- `BvhNode::hit`: a node is consulted only if its own `aabb.hit(ray, clip)`
succeeds; a `Leaf` delegates to the primitive's `hit` with the unchanged
clip; a `Parent` queries both children with the same clip and combines with
`combineHit`; all other cases give `None`. -/
def HitTree.hit : HitTree → Clip → Option HitManifold
  | .leaf g f, c => if g c then f c else none
  | .parent g l r, c => if g c then combineHit (l.hit c) (r.hit c) else none

/-- Modelled from the spec: the nearest-hit query as the specification words
it — "recurse into both children with the current best `t` as the shrinking
clip upper bound (the second child is queried with `clip.max` reduced to the
first child's hit `t` when one exists), then return whichever child result
has the smaller `t`".  To be compared with `HitTree.hit`, the definition
taken from the source. -/
def HitTree.hitSpec : HitTree → Clip → Option HitManifold
  | .leaf g f, c => if g c then f c else none
  | .parent g l r, c =>
    if g c then
      match HitTree.hitSpec l c with
      | some m => combineHit (some m) (HitTree.hitSpec r ⟨c.min, m.t⟩)
      | none => HitTree.hitSpec r c
    else none

/-- Restriction of an optional hit to a lowered upper clip bound. -/
def clipFilter : Option HitManifold → ℚ → Option HitManifold
  | some m, hi => if m.t ≤ hi then some m else none
  | none, _ => none

/-- A query function respects clips when (a) a returned hit lies inside the
clip, and (b) lowering the upper clip bound keeps the result exactly when its
`t` still fits, and discards it otherwise.  The real primitive intersection
routines (sphere / rect / cuboid) and the slab test have this property. -/
def ClipRespecting (h : Clip → Option HitManifold) : Prop :=
  (∀ c m, h c = some m → c.min ≤ m.t ∧ m.t ≤ c.max) ∧
  (∀ lo hi hi', hi' ≤ hi → h ⟨lo, hi'⟩ = clipFilter (h ⟨lo, hi⟩) hi')

/-- Well-formedness of a query tree: every subtree's query respects clips. -/
def HitTree.WF : HitTree → Prop
  | .leaf g f => ClipRespecting ((HitTree.leaf g f).hit)
  | .parent g l r =>
    ClipRespecting ((HitTree.parent g l r).hit) ∧ l.WF ∧ r.WF

theorem HitTree.wf_cr {t : HitTree} (h : t.WF) : ClipRespecting t.hit := by
  cases t with
  | leaf g f => exact h
  | parent g l r => exact h.1

/-- On a well-formed tree the source query coincides with the spec-worded
shrinking-clip query. -/
theorem HitTree.hitSpec_eq_hit {t : HitTree} (hwf : t.WF) :
    ∀ c, t.hitSpec c = t.hit c := by
  induction t with
  | leaf g f => intro c; rfl
  | parent g l r ihl ihr =>
    obtain ⟨hcr, hwl, hwr⟩ := hwf
    intro c
    unfold HitTree.hitSpec HitTree.hit
    by_cases hg : g c
    · rw [if_pos hg, if_pos hg, ihl hwl]
      cases hl : l.hit c with
      | none =>
        show r.hitSpec c = combineHit none (r.hit c)
        rw [ihr hwr]
        cases r.hit c <;> simp [combineHit]
      | some m =>
        show combineHit (some m) (r.hitSpec ⟨c.min, m.t⟩) = combineHit (some m) (r.hit c)
        have hmb := (HitTree.wf_cr hwl).1 c m hl
        have hshrink := (HitTree.wf_cr hwr).2 c.min c.max m.t hmb.2
        rw [ihr hwr ⟨c.min, m.t⟩]
        have hc : (⟨c.min, c.max⟩ : Clip) = c := rfl
        rw [hc] at hshrink
        rw [hshrink]
        cases hr : r.hit c with
        | none => simp [clipFilter, combineHit]
        | some b =>
          show combineHit (some m) (clipFilter (some b) m.t) =
            combineHit (some m) (some b)
          simp only [clipFilter]
          by_cases hbt : b.t ≤ m.t
          · rw [if_pos hbt]
          · rw [if_neg hbt]
            simp only [combineHit]
            rw [if_pos (by linarith)]
    · rw [if_neg hg, if_neg hg]

/-- Claim C1: on a well-formed BVH the nearest-hit query returns, for every
clip, exactly the result of the spec's shrinking-clip branch-and-bound
recursion; and at a `Parent` whose slab gate passes, the returned manifold is
one of the two children's results and its `t` is minimal among them. -/
theorem c1_hit_shrinking_clip_min (t : HitTree) (hwf : t.WF) :
    (∀ c, t.hitSpec c = t.hit c) ∧
      (∀ (g : Clip → Bool) (l r : HitTree) (c : Clip) (m : HitManifold),
        g c = true →
        (HitTree.parent g l r).hit c = some m →
        (∀ ml, l.hit c = some ml → m.t ≤ ml.t) ∧
          (∀ mr, r.hit c = some mr → m.t ≤ mr.t) ∧
          (l.hit c = some m ∨ r.hit c = some m)) := by
  refine ⟨HitTree.hitSpec_eq_hit hwf, ?_⟩
  intro g l r c m hg hm
  rw [HitTree.hit, if_pos hg] at hm
  cases hl : l.hit c with
  | none =>
    cases hr : r.hit c with
    | none => rw [hl, hr] at hm; simp [combineHit] at hm
    | some b =>
      rw [hl, hr] at hm
      simp only [combineHit, Option.some.injEq] at hm
      subst hm
      exact ⟨fun ml hml => by simp at hml, fun mr hmr => by
        simp only [Option.some.injEq] at hmr; simp [← hmr], Or.inr rfl⟩
  | some a =>
    cases hr : r.hit c with
    | none =>
      rw [hl, hr] at hm
      simp only [combineHit, Option.some.injEq] at hm
      subst hm
      exact ⟨fun ml hml => by simp only [Option.some.injEq] at hml; simp [← hml],
        fun mr hmr => by simp at hmr, Or.inl rfl⟩
    | some b =>
      rw [hl, hr] at hm
      simp only [combineHit] at hm
      by_cases hab : a.t < b.t
      · rw [if_pos hab] at hm
        simp only [Option.some.injEq] at hm
        subst hm
        refine ⟨fun ml hml => by simp only [Option.some.injEq] at hml; simp [← hml],
          fun mr hmr => by simp only [Option.some.injEq] at hmr; rw [← hmr]; linarith,
          Or.inl rfl⟩
      · rw [if_neg hab] at hm
        simp only [Option.some.injEq] at hm
        subst hm
        refine ⟨fun ml hml => by simp only [Option.some.injEq] at hml; rw [← hml]; linarith,
          fun mr hmr => by simp only [Option.some.injEq] at hmr; simp [← hmr],
          Or.inr rfl⟩

/-! Witness infrastructure for claim C1: a small concrete well-formed query
tree (two always-passing gates over clip-respecting constant-`t` leaves). -/

/-- A gate that always passes (a box the fixed ray always intersects). -/
def trueGate : Clip → Bool := fun _ => true

/-- A primitive hit at fixed parameter `t0`, respecting the clip. -/
def constHitAt (t0 : ℚ) (p : ℕ) : Clip → Option HitManifold :=
  fun c => if c.min ≤ t0 ∧ t0 ≤ c.max then some ⟨t0, p⟩ else none

theorem hit_leaf_trueGate (f : Clip → Option HitManifold) :
    (HitTree.leaf trueGate f).hit = f :=
  funext fun c => by simp [HitTree.hit, trueGate]

theorem hit_parent_trueGate (l r : HitTree) :
    (HitTree.parent trueGate l r).hit = fun c => combineHit (l.hit c) (r.hit c) :=
  funext fun c => by simp [HitTree.hit, trueGate]

theorem cr_constHitAt (t0 : ℚ) (p : ℕ) : ClipRespecting (constHitAt t0 p) := by
  constructor
  · intro c m hm
    unfold constHitAt at hm
    split_ifs at hm with h
    · cases hm
      exact h
  · intro lo hi hi' hle
    unfold constHitAt
    by_cases hlo : lo ≤ t0
    · by_cases hhi2 : t0 ≤ hi'
      · rw [if_pos ⟨hlo, hhi2⟩, if_pos ⟨hlo, by linarith⟩]
        simp [clipFilter, hhi2]
      · rw [if_neg (by tauto)]
        by_cases hhi : t0 ≤ hi
        · rw [if_pos ⟨hlo, hhi⟩]
          simp [clipFilter, hhi2]
        · rw [if_neg (by tauto)]
          simp [clipFilter]
    · rw [if_neg (by tauto), if_neg (by tauto)]
      simp [clipFilter]

theorem combineHit_clipFilter (A B : Option HitManifold) (hi' : ℚ) :
    combineHit (clipFilter A hi') (clipFilter B hi') = clipFilter (combineHit A B) hi' := by
  cases A with
  | none =>
    cases B with
    | none => rfl
    | some b => simp only [clipFilter, combineHit]; split_ifs <;> rfl
  | some a =>
    cases B with
    | none => simp only [clipFilter, combineHit]; split_ifs <;> rfl
    | some b =>
      by_cases hab : a.t < b.t
      · rw [show combineHit (some a) (some b) = some a from by simp [combineHit, hab]]
        by_cases ha2 : a.t ≤ hi'
        · by_cases hb2 : b.t ≤ hi' <;>
            simp [clipFilter, combineHit, ha2, hb2, hab]
        · have hb2 : ¬ b.t ≤ hi' := by intro h; exact ha2 (by linarith)
          simp [clipFilter, combineHit, ha2, hb2]
      · rw [show combineHit (some a) (some b) = some b from by simp [combineHit, hab]]
        push_neg at hab
        by_cases hb2 : b.t ≤ hi'
        · by_cases ha2 : a.t ≤ hi' <;>
            simp [clipFilter, combineHit, ha2, hb2, not_lt.mpr hab]
        · have ha2 : ¬ a.t ≤ hi' := by intro h; exact hb2 (by linarith)
          simp [clipFilter, combineHit, ha2, hb2]

/-- Combining two clip-respecting queries with `combineHit` is clip-respecting. -/
theorem cr_combine {h1 h2 : Clip → Option HitManifold}
    (hc1 : ClipRespecting h1) (hc2 : ClipRespecting h2) :
    ClipRespecting (fun c => combineHit (h1 c) (h2 c)) := by
  constructor
  · intro c m hm
    simp only at hm
    cases hA : h1 c with
    | none =>
      cases hB : h2 c with
      | none => rw [hA, hB] at hm; simp [combineHit] at hm
      | some b =>
        rw [hA, hB] at hm
        simp only [combineHit, Option.some.injEq] at hm
        subst hm
        exact hc2.1 c _ hB
    | some a =>
      cases hB : h2 c with
      | none =>
        rw [hA, hB] at hm
        simp only [combineHit, Option.some.injEq] at hm
        subst hm
        exact hc1.1 c _ hA
      | some b =>
        rw [hA, hB] at hm
        simp only [combineHit] at hm
        split_ifs at hm <;> (cases hm)
        · exact hc1.1 c _ hA
        · exact hc2.1 c _ hB
  · intro lo hi hi' hle
    simp only
    rw [hc1.2 lo hi hi' hle, hc2.2 lo hi hi' hle, combineHit_clipFilter]

theorem HitTree.wf_leaf_const (t0 : ℚ) (p : ℕ) :
    (HitTree.leaf trueGate (constHitAt t0 p)).WF := by
  show ClipRespecting ((HitTree.leaf trueGate (constHitAt t0 p)).hit)
  rw [hit_leaf_trueGate]
  exact cr_constHitAt t0 p

theorem HitTree.wf_parent_true {l r : HitTree} (hl : l.WF) (hr : r.WF) :
    (HitTree.parent trueGate l r).WF := by
  refine ⟨?_, hl, hr⟩
  rw [hit_parent_trueGate]
  exact cr_combine (HitTree.wf_cr hl) (HitTree.wf_cr hr)

/-- Concrete well-formed query tree: two always-visible primitives at
`t = 5` and `t = 7`. -/
def hitTreeW : HitTree :=
  .parent trueGate (.leaf trueGate (constHitAt 5 0)) (.leaf trueGate (constHitAt 7 1))

theorem hitTreeW_wf : hitTreeW.WF :=
  HitTree.wf_parent_true (HitTree.wf_leaf_const 5 0) (HitTree.wf_leaf_const 7 1)

/-- Witness for claim C1: on the concrete tree with hits at `t = 5` and
`t = 7` and clip `[0, 100]`, the spec's shrinking-clip query agrees with the
code's query, and the result is the nearer hit at `t = 5`. -/
theorem c1_hit_witness :
    hitTreeW.hitSpec ⟨0, 100⟩ = hitTreeW.hit ⟨0, 100⟩ ∧
      hitTreeW.hit ⟨0, 100⟩ = some ⟨5, 0⟩ :=
  ⟨(c1_hit_shrinking_clip_min hitTreeW hitTreeW_wf).1 ⟨0, 100⟩, by decide⟩

/-! ## Tiled buffer partitioning (`Buffer::chunks` / `Chunks::next`,
`src/tracer/buffer.rs`) and claim C7 -/

/-- A chunk rectangle: the `min_x / min_y / max_x / max_y` fields of `Chunk`,
lower bounds inclusive, upper bounds exclusive. -/
structure Rect where
  minX : ℕ
  minY : ℕ
  maxX : ℕ
  maxY : ℕ
deriving DecidableEq

/-- Pixel membership in a chunk (the bounds checked by `Chunk::write_color`). -/
def Rect.containsB (r : Rect) (x y : ℕ) : Bool :=
  decide (r.minX ≤ x ∧ x < r.maxX ∧ r.minY ≤ y ∧ y < r.maxY)

/-- Chunk dimension computed by `Buffer::chunks`: `w / cx`, rounded up when
`cx` does not divide `w`. -/
def chunkDim (w cx : ℕ) : ℕ :=
  if w % cx = 0 then w / cx else w / cx + 1

/-- The sequence of chunks produced by `Chunks::next` from offsets
`(ox, oy)`: each step emits the rectangle at the current offset, clipped to
the remaining width/height (`chunk_width = cw.min(w - ox)` etc.), advances
`ox` by the clipped width, resets `ox` and advances `oy` at the end of a row,
and stops when `oy` reaches `h`.  The fuel argument only bounds the number
of iterations (the real iterator stops via its `done` flag); `chunksList`
passes fuel `w + w * h`, shown sufficient in `chunksGo_countP`. -/
def chunksGo (w h cw ch : ℕ) : ℕ → ℕ → ℕ → List Rect
  | 0, _, _ => []
  | fuel + 1, ox, oy =>
    ⟨ox, oy, ox + min cw (w - ox), oy + min ch (h - oy)⟩ ::
      (if (if ox + min cw (w - ox) = w then oy + min ch (h - oy) else oy) = h then []
       else
         chunksGo w h cw ch fuel
           (if ox + min cw (w - ox) = w then 0 else ox + min cw (w - ox))
           (if ox + min cw (w - ox) = w then oy + min ch (h - oy) else oy))

/-- `Buffer::chunks(chunks_x, chunks_y)` collected into a list. -/
def Buffer.chunksList (w h cx cy : ℕ) : List Rect :=
  chunksGo w h (chunkDim w cx) (chunkDim h cy) (w + w * h) 0 0

theorem chunkDim_pos (w cx : ℕ) (hw : 0 < w) (hcx : 0 < cx) : 0 < chunkDim w cx := by
  unfold chunkDim
  split_ifs with h
  · exact Nat.div_pos (Nat.le_of_dvd hw (Nat.dvd_of_mod_eq_zero h)) hcx
  · exact Nat.succ_pos _

/-- Loop invariant of the tiling iterator: starting at `(ox, oy)` it covers
each pixel of the remainder of the current row band plus all full bands below
exactly once. -/
theorem chunksGo_countP (w h cw ch : ℕ) (hcw : 0 < cw) (hch : 0 < ch) :
    ∀ fuel ox oy, ox < w → oy < h → w - ox + w * (h - oy) ≤ fuel →
      ∀ x y,
        (chunksGo w h cw ch fuel ox oy).countP (fun r => r.containsB x y) =
          if (ox ≤ x ∧ x < w ∧ oy ≤ y ∧ y < oy + min ch (h - oy)) ∨
              (x < w ∧ oy + min ch (h - oy) ≤ y ∧ y < h) then 1 else 0 := by
  intro fuel
  induction fuel with
  | zero =>
    intro ox oy hox hoy hfuel x y
    omega
  | succ fuel ih =>
    intro ox oy hox hoy hfuel x y
    simp only [chunksGo]
    by_cases hrow : ox + min cw (w - ox) = w
    · by_cases hdone : oy + min ch (h - oy) = h
      · rw [if_pos (by rw [if_pos hrow]; exact hdone)]
        simp only [List.countP_cons, List.countP_nil, Rect.containsB,
          decide_eq_true_eq]
        split_ifs <;> omega
      · rw [if_neg (by rw [if_pos hrow]; exact hdone)]
        rw [if_pos hrow, if_pos hrow]
        have hband : oy + min ch (h - oy) < h := by omega
        have hsplit : w * (h - oy) = w * (h - (oy + min ch (h - oy))) +
            w * min ch (h - oy) := by
          rw [← Nat.mul_add]
          congr 1
          omega
        have hwch : w ≤ w * min ch (h - oy) :=
          Nat.le_mul_of_pos_right w (by omega)
        rw [List.countP_cons,
          ih 0 (oy + min ch (h - oy)) (by omega) hband (by omega) x y]
        simp only [Rect.containsB, decide_eq_true_eq]
        split_ifs <;> omega
    · have hoxlt : ox + min cw (w - ox) < w := by omega
      rw [if_neg (by rw [if_neg hrow]; omega)]
      rw [if_neg hrow, if_neg hrow]
      rw [List.countP_cons,
        ih (ox + min cw (w - ox)) oy hoxlt hoy (by omega) x y]
      simp only [Rect.containsB, decide_eq_true_eq]
      split_ifs <;> omega

/-- Every emitted chunk is a nonempty rectangle inside the buffer bounds. -/
theorem chunksGo_bounds (w h cw ch : ℕ) (hcw : 0 < cw) (hch : 0 < ch) :
    ∀ fuel ox oy, ox < w → oy < h →
      ∀ r ∈ chunksGo w h cw ch fuel ox oy,
        r.minX < r.maxX ∧ r.maxX ≤ w ∧ r.minY < r.maxY ∧ r.maxY ≤ h := by
  intro fuel
  induction fuel with
  | zero =>
    intro ox oy hox hoy r hr
    simp [chunksGo] at hr
  | succ fuel ih =>
    intro ox oy hox hoy r hr
    simp only [chunksGo] at hr
    rcases List.mem_cons.mp hr with hr | hr
    · subst hr
      refine ⟨by simp; omega, by simp; omega, by simp; omega, by simp; omega⟩
    · by_cases hrow : ox + min cw (w - ox) = w
      · by_cases hdone : oy + min ch (h - oy) = h
        · rw [if_pos (by rw [if_pos hrow]; exact hdone)] at hr
          simp at hr
        · rw [if_neg (by rw [if_pos hrow]; exact hdone)] at hr
          rw [if_pos hrow, if_pos hrow] at hr
          exact ih 0 (oy + min ch (h - oy)) (by omega) (by omega) r hr
      · rw [if_neg (by rw [if_neg hrow]; omega)] at hr
        rw [if_neg hrow, if_neg hrow] at hr
        exact ih (ox + min cw (w - ox)) oy (by omega) hoy r hr

/-- Chunk order: strictly later in the row band, or a strictly lower band. -/
def rectRowLt (r1 r2 : Rect) : Prop :=
  r1.minY < r2.minY ∨ (r1.minY = r2.minY ∧ r1.minX < r2.minX)

/-- The emitted chunks are in strict row-major order, and the first chunk
sits at the current offset. -/
theorem chunksGo_chain (w h cw ch : ℕ) (hcw : 0 < cw) (hch : 0 < ch) :
    ∀ fuel ox oy, ox < w → oy < h →
      (chunksGo w h cw ch fuel ox oy).Chain' rectRowLt ∧
        ∀ r rest, chunksGo w h cw ch fuel ox oy = r :: rest →
          r.minX = ox ∧ r.minY = oy := by
  intro fuel
  induction fuel with
  | zero =>
    intro ox oy hox hoy
    exact ⟨by simp [chunksGo], fun r rest hr => by simp [chunksGo] at hr⟩
  | succ fuel ih =>
    intro ox oy hox hoy
    constructor
    · simp only [chunksGo]
      refine List.chain'_cons'.mpr ⟨?_, ?_⟩
      · intro b hb
        by_cases hrow : ox + min cw (w - ox) = w
        · by_cases hdone : oy + min ch (h - oy) = h
          · rw [if_pos (by rw [if_pos hrow]; exact hdone)] at hb
            simp at hb
          · rw [if_neg (by rw [if_pos hrow]; exact hdone)] at hb
            rw [if_pos hrow, if_pos hrow] at hb
            cases hl : chunksGo w h cw ch fuel 0 (oy + min ch (h - oy)) with
            | nil => rw [hl] at hb; simp at hb
            | cons r rest =>
              rw [hl] at hb
              simp only [List.head?_cons, Option.mem_def, Option.some.injEq] at hb
              subst hb
              have := (ih 0 (oy + min ch (h - oy)) (by omega) (by omega)).2 r rest hl
              left
              simp only [this.2]
              omega
        · rw [if_neg (by rw [if_neg hrow]; omega)] at hb
          rw [if_neg hrow, if_neg hrow] at hb
          cases hl : chunksGo w h cw ch fuel (ox + min cw (w - ox)) oy with
          | nil => rw [hl] at hb; simp at hb
          | cons r rest =>
            rw [hl] at hb
            simp only [List.head?_cons, Option.mem_def, Option.some.injEq] at hb
            subst hb
            have := (ih (ox + min cw (w - ox)) oy (by omega) hoy).2 r rest hl
            right
            constructor
            · simp [this.2]
            · simp only [this.1]
              omega
      · by_cases hrow : ox + min cw (w - ox) = w
        · by_cases hdone : oy + min ch (h - oy) = h
          · rw [if_pos (by rw [if_pos hrow]; exact hdone)]
            simp
          · rw [if_neg (by rw [if_pos hrow]; exact hdone)]
            rw [if_pos hrow, if_pos hrow]
            exact (ih 0 (oy + min ch (h - oy)) (by omega) (by omega)).1
        · rw [if_neg (by rw [if_neg hrow]; omega)]
          rw [if_neg hrow, if_neg hrow]
          exact (ih (ox + min cw (w - ox)) oy (by omega) hoy).1
    · intro r rest hr
      simp only [chunksGo, List.cons.injEq] at hr
      rw [← hr.1]
      exact ⟨rfl, rfl⟩

/-- Claim C7: for a buffer of positive width and height and a positive chunk
grid, the chunks produced by `Buffer::chunks` cover every pixel of
`[0, w) × [0, h)` exactly once (so they are pairwise disjoint and their union
is the full pixel grid and no two tile tasks address the same pixel), each
chunk is a nonempty rectangle clipped to the buffer bounds, and the chunks
are yielded in strict row-major order. -/
theorem c7_chunks_partition (w h cx cy : ℕ) (hw : 0 < w) (hh : 0 < h)
    (hcx : 0 < cx) (hcy : 0 < cy) :
    (∀ x y, x < w → y < h →
        (Buffer.chunksList w h cx cy).countP (fun r => r.containsB x y) = 1) ∧
      (∀ r ∈ Buffer.chunksList w h cx cy,
        r.minX < r.maxX ∧ r.maxX ≤ w ∧ r.minY < r.maxY ∧ r.maxY ≤ h) ∧
      (Buffer.chunksList w h cx cy).Chain' rectRowLt := by
  have hcw := chunkDim_pos w cx hw hcx
  have hch := chunkDim_pos h cy hh hcy
  refine ⟨?_, ?_, ?_⟩
  · intro x y hx hy
    rw [Buffer.chunksList,
      chunksGo_countP w h (chunkDim w cx) (chunkDim h cy) hcw hch
        (w + w * h) 0 0 hw hh (by simp) x y]
    rw [if_pos]
    omega
  · intro r hr
    exact chunksGo_bounds w h (chunkDim w cx) (chunkDim h cy) hcw hch
      (w + w * h) 0 0 hw hh r hr
  · exact (chunksGo_chain w h (chunkDim w cx) (chunkDim h cy) hcw hch
      (w + w * h) 0 0 hw hh).1

/-- Witness for claim C7: a `5 × 3` buffer with a `2 × 2` chunk grid — the
chunks cover each of the fifteen pixels exactly once, stay in bounds and are
emitted in row-major order. -/
theorem c7_chunks_witness :
    (∀ x y, x < 5 → y < 3 →
        (Buffer.chunksList 5 3 2 2).countP (fun r => r.containsB x y) = 1) ∧
      (∀ r ∈ Buffer.chunksList 5 3 2 2,
        r.minX < r.maxX ∧ r.maxX ≤ 5 ∧ r.minY < r.maxY ∧ r.maxY ≤ 3) ∧
      (Buffer.chunksList 5 3 2 2).Chain' rectRowLt :=
  c7_chunks_partition 5 3 2 2 (by decide) (by decide) (by decide) (by decide)

/-! ## Tracer configuration (`src/tracer/mod.rs`) and claim C4 -/

/-- `Output` from `src/tracer/mod.rs`. -/
inductive Output where
  | full
  | albedo
  | normalView
  | depth
deriving DecidableEq

/-- `Subsample` from `src/tracer/mod.rs`. -/
inductive Subsample where
  | none
  | subpixel (count : ℕ)
deriving DecidableEq

/-- `Subsample::subpixel_count`: `1` for `None`, `count * count` otherwise. -/
def Subsample.subpixelCount : Subsample → ℕ
  | .none => 1
  | .subpixel count => count * count

/-- `Config` from `src/tracer/mod.rs`. -/
structure Config where
  max_bounces : ℕ
  max_volume_bounces : ℕ
  clip_min : ℚ
  clip_max : ℚ
  volume_step : ℚ
  chunks_x : ℕ
  chunks_y : ℕ

/-- `Config::DEFAULT`. -/
def Config.defaultC : Config :=
  { max_bounces := 8, max_volume_bounces := 32, clip_min := 1/100,
    clip_max := 1000, volume_step := 1/10, chunks_x := 4, chunks_y := 2 }

/-- `RenderConfig` from `src/tracer/mod.rs`. -/
structure RenderConfig where
  output : Output
  subsample : Subsample
  samples : ℕ
  max_bounces : Option ℕ
  max_volume_bounces : Option ℕ
  volume_step : Option ℚ

/-- `RenderConfig::DEFAULT`. -/
def RenderConfig.defaultC : RenderConfig :=
  { output := .full, subsample := .none, samples := 64,
    max_bounces := none, max_volume_bounces := none, volume_step := none }

/-- `ChunkConfig` from `src/tracer/mod.rs`. -/
structure ChunkConfig where
  output : Output
  subsample : Subsample
  samples : ℕ
  max_bounces : ℕ
  max_volume_bounces : ℕ
  clip_min : ℚ
  clip_max : ℚ
  volume_step : ℚ

/-- `ChunkConfig::with_configs`, field for field from the source; note that
the `max_volume_bounces` field is filled from
`render.max_bounces.unwrap_or(main.max_volume_bounces)` — it reads the
*surface* override `render.max_bounces`, and `render.max_volume_bounces` is
never read. -/
def ChunkConfig.with_configs (main : Config) (render : RenderConfig) : ChunkConfig :=
  { output := render.output
    subsample := render.subsample
    samples := render.samples
    max_bounces := render.max_bounces.getD main.max_bounces
    max_volume_bounces := render.max_bounces.getD main.max_volume_bounces
    clip_min := main.clip_min
    clip_max := main.clip_max
    volume_step := render.volume_step.getD main.volume_step }

/-- The guard at the top of `ChunkState::sample_volumetric`: when
`volume_bounce > self.config.max_volume_bounces` the walk returns
`LinearRgb::BLACK` immediately. -/
def volumetricGuardBlack (cfg : ChunkConfig) (volume_bounce : ℕ) : Bool :=
  decide (cfg.max_volume_bounces < volume_bounce)

/-- The render config of the failing input for claim C4: a surface-bounce
override of `5`, no volume-bounce override. -/
def c4render : RenderConfig :=
  { RenderConfig.defaultC with samples := 1, max_bounces := some 5 }

/-- Claim C4 (code bug): with the default `Config`
(`max_volume_bounces = 32`) and a `RenderConfig` that sets the *surface*
override `max_bounces = Some(5)` but supplies no volume-bounce override
(`max_volume_bounces = None`), the effective volume-bounce budget computed
by `ChunkConfig::with_configs` is `5`, not `Config.max_volume_bounces = 32`
— it follows the surface override because the field is filled from
`render.max_bounces` — and consequently `sample_volumetric` already
truncates to black at volume bounce `6`. -/
theorem c4_volume_override_bug :
    (ChunkConfig.with_configs Config.defaultC c4render).max_volume_bounces = 5 ∧
      c4render.max_volume_bounces = Option.none ∧
      Config.defaultC.max_volume_bounces = 32 ∧
      volumetricGuardBlack (ChunkConfig.with_configs Config.defaultC c4render) 6 = true ∧
      (5 : ℕ) ≠ 32 := by
  refine ⟨rfl, rfl, rfl, rfl, by decide⟩

/-! ## Accumulation buffer (`Buffer::inc_samples` / `Buffer::write_color` /
`Tracer::render`, `src/tracer/buffer.rs` and `src/tracer/mod.rs`) and
claim C8

Pixels are a function from coordinates to one colour channel (the three
channels of `write_color` behave identically); a render pass's chunk loops
add, pixel by pixel, the radiance of the samples taken in that pass, which is
abstracted as the pass's per-pixel contribution function. -/

/-- `Buffer { samples, buffer }`: the sample counter and the running
per-pixel sums. -/
structure Buffer where
  samples : ℕ
  sum : ℕ × ℕ → ℚ

/-- `Buffer::new`: zero samples, all-black pixels. -/
def Buffer.new : Buffer := ⟨0, fun _ => 0⟩

/-- `Buffer::inc_samples`: `self.samples += samples`. -/
def Buffer.inc_samples (b : Buffer) (s : ℕ) : Buffer :=
  { b with samples := b.samples + s }

/-- `Buffer::write_color`: adds the sample's value into the running sum. -/
def Buffer.write_color (b : Buffer) (p : ℕ × ℕ) (c : ℚ) : Buffer :=
  { b with sum := fun q => if q = p then b.sum q + c else b.sum q }

/-- The displayed pixel of `Buffer::preview`: running sum times
`(samples as f32).recip()`. -/
def Buffer.average (b : Buffer) (p : ℕ × ℕ) : ℚ :=
  b.sum p / (b.samples : ℚ)

/-- `Tracer::render`: with zero requested samples it returns immediately
without touching the buffer; otherwise the chunk tasks add each pixel's
accumulated radiance for this pass (`contrib`), and the pass ends with
`inc_samples(samples * subsample.subpixel_count())`. -/
def Tracer.render (samples : ℕ) (subsample : Subsample)
    (contrib : ℕ × ℕ → ℚ) (b : Buffer) : Buffer :=
  if samples = 0 then b
  else
    { samples := b.samples + samples * subsample.subpixelCount
      sum := fun p => b.sum p + contrib p }

/-- Claim C8: rendering twice into a fresh buffer with sample counts `s1`
then `s2` (no subsampling) leaves `sample_count = s1 + s2`; the counter
never decreases across any render call; and because pixels store running
sums, the final average pixel is the sample-weighted average of the two
passes' individual averages. -/
theorem c8_accumulation (s1 s2 : ℕ) (f1 f2 : ℕ × ℕ → ℚ) (p : ℕ × ℕ)
    (h1 : 0 < s1) (h2 : 0 < s2) :
    (Tracer.render s2 .none f2 (Tracer.render s1 .none f1 Buffer.new)).samples
        = s1 + s2 ∧
      (∀ (s : ℕ) (sub : Subsample) (f : ℕ × ℕ → ℚ) (b : Buffer),
        b.samples ≤ (Tracer.render s sub f b).samples) ∧
      (Tracer.render s2 .none f2 (Tracer.render s1 .none f1 Buffer.new)).average p =
        ((s1 : ℚ) * (Tracer.render s1 .none f1 Buffer.new).average p +
            (s2 : ℚ) * (Tracer.render s2 .none f2 Buffer.new).average p) /
          ((s1 : ℚ) + (s2 : ℚ)) := by
  have hn1 : ¬ s1 = 0 := by omega
  have hn2 : ¬ s2 = 0 := by omega
  refine ⟨?_, ?_, ?_⟩
  · simp [Tracer.render, hn1, hn2, Buffer.new, Subsample.subpixelCount]
  · intro s sub f b
    by_cases hs : s = 0 <;> simp [Tracer.render, hs]
  · have hs1 : ((s1 : ℚ)) ≠ 0 := Nat.cast_ne_zero.mpr hn1
    have hs2 : ((s2 : ℚ)) ≠ 0 := Nat.cast_ne_zero.mpr hn2
    have hs12 : ((s1 : ℚ)) + (s2 : ℚ) ≠ 0 := by positivity
    simp [Tracer.render, hn1, hn2, Buffer.new, Buffer.average,
      Subsample.subpixelCount]
    field_simp

/-- Witness for claim C8 at `s1 = 2`, `s2 = 3` with constant contributions
`4` and `6` per pixel. -/
theorem c8_accumulation_witness :
    (Tracer.render 3 .none (fun _ => (6 : ℚ))
        (Tracer.render 2 .none (fun _ => (4 : ℚ)) Buffer.new)).samples = 2 + 3 ∧
      (∀ (s : ℕ) (sub : Subsample) (f : ℕ × ℕ → ℚ) (b : Buffer),
        b.samples ≤ (Tracer.render s sub f b).samples) ∧
      (Tracer.render 3 .none (fun _ => (6 : ℚ))
          (Tracer.render 2 .none (fun _ => (4 : ℚ)) Buffer.new)).average (0, 0) =
        ((2 : ℚ) * (Tracer.render 2 .none (fun _ => (4 : ℚ)) Buffer.new).average (0, 0) +
            (3 : ℚ) * (Tracer.render 3 .none (fun _ => (6 : ℚ)) Buffer.new).average (0, 0)) /
          ((2 : ℚ) + (3 : ℚ)) :=
  c8_accumulation 2 3 (fun _ => (4 : ℚ)) (fun _ => (6 : ℚ)) (0, 0)
    (by decide) (by decide)

/-! ## Mixture PDF (`Pdf` in `src/material/surface.rs`), claims C5 and C6

The distributions are analysed at one shading event over an arbitrary ray
type `R`.  A base lobe (`Diffuse`, `Metallic(roughness)`, `Glass(roughness,
ior)`, `Light(object)`) is abstracted as its sampler — a function of the RNG
stream — together with its density function of the produced ray (for
`Diffuse` the source computes `normal.dot(direction) * FRAC_1_PI`, for
`Metallic` and `Glass` it is `1.0`, for `Light` the primitive's solid-angle
density with the manifold and clip of the event); the `Mix` arms of
`scatter` and `pdf_impl` are translated from the source.  The RNG is a
stream of uniform draws in `[0, 1)`; `rng.gen_bool(x)` consumes one draw `u`
and is `u < x`. -/

/-- A base lobe: its sampler over the RNG stream and its density. -/
structure Lobe (R : Type) where
  sample : (ℕ → ℚ) → R
  density : R → ℚ

/-- The `Pdf` enum: base lobes plus the recursive `Mix(a, b, weight)`. -/
inductive Pdf (R : Type) where
  | base (lobe : Lobe R)
  | mix (a b : Pdf R) (weight : ℚ)

/-- The rest of the RNG stream after one draw is consumed. -/
def streamTail (s : ℕ → ℚ) : ℕ → ℚ := fun n => s (n + 1)

/-- `rng.gen_bool(x)`: true with probability `x`, modelled as `u < x` on the
consumed uniform draw `u`. -/
def genBool (x u : ℚ) : Bool := decide (u < x)

/-- `Pdf::scatter`: a base lobe samples itself; `Mix(a, b, x)` flips a coin
`gen_bool(x)` and samples `b` on true, `a` on false. -/
def Pdf.scatter {R : Type} : Pdf R → (ℕ → ℚ) → R
  | .base lobe, s => lobe.sample s
  | .mix a b x, s =>
    if genBool x (s 0) then b.scatter (streamTail s) else a.scatter (streamTail s)

/-- `Interpolate::lerp` for `f32` (`src/math/mod.rs`):
`self + (other - self) * factor`. -/
def lerp (a b factor : ℚ) : ℚ := a + (b - a) * factor

/-- `Pdf::pdf_impl`: base lobes evaluate their own density; `Mix(a, b, x)`
reports the blend `a.pdf_impl(..).lerp(b.pdf_impl(..), x)` regardless of the
branch `scatter` took. -/
def Pdf.pdf_impl {R : Type} : Pdf R → R → ℚ
  | .base lobe, ray => lobe.density ray
  | .mix a b x, ray => lerp (a.pdf_impl ray) (b.pdf_impl ray) x

/-- `Pdf::pdf`: `None` when `pdf_impl(..).abs() < 1e-5`, else the density. -/
def Pdf.pdf {R : Type} (p : Pdf R) (ray : R) : Option ℚ :=
  if |p.pdf_impl ray| < 1/100000 then none else some (p.pdf_impl ray)

/-- `ShaderData`: the scattered ray (if any) and the sampling weight; the
colour payload, identical in the two branches the claims compare, is
omitted. -/
structure ShaderData (R : Type) where
  is_volume : Bool
  scatter : Option R
  pdf : ℚ

/-- The `Surface::Diffuse` arm of `Surface::shade` after light selection:
build `Pdf::Mix(&Pdf::Diffuse, &light, 0.5)`, sample a scattered ray from
it, and if `pdf.pdf(..)` is usable return it as the weight with the ray,
otherwise return no scattered ray with fallback weight `1.0`. -/
def shadeDiffuse {R : Type} (diffuse light : Lobe R) (s : ℕ → ℚ) : ShaderData R :=
  let pdf := Pdf.mix (.base diffuse) (.base light) (1/2)
  let ray := pdf.scatter s
  match pdf.pdf ray with
  | some p => { is_volume := false, scatter := some ray, pdf := p }
  | none => { is_volume := false, scatter := none, pdf := 1 }

/-- Claim C5: `Pdf::pdf` returns `None` exactly when the absolute value of
the mixture density at the sampled ray is below `1e-5`, and in that case the
`Diffuse` arm of `Surface::shade` returns `ShaderData` with fallback weight
`pdf = 1` and no scattered ray, while otherwise the weight is the density
itself and the sampled ray is returned. -/
theorem c5_pdf_epsilon_fallback {R : Type} (diffuse light : Lobe R)
    (s : ℕ → ℚ) (q : Pdf R) (ray : R) :
    (q.pdf ray = none ↔ |q.pdf_impl ray| < 1/100000) ∧
      ((shadeDiffuse diffuse light s).pdf =
        if |(Pdf.mix (.base diffuse) (.base light) (1/2)).pdf_impl
              ((Pdf.mix (.base diffuse) (.base light) (1/2)).scatter s)| < 1/100000
        then 1
        else (Pdf.mix (.base diffuse) (.base light) (1/2)).pdf_impl
          ((Pdf.mix (.base diffuse) (.base light) (1/2)).scatter s)) ∧
      ((shadeDiffuse diffuse light s).scatter =
        if |(Pdf.mix (.base diffuse) (.base light) (1/2)).pdf_impl
              ((Pdf.mix (.base diffuse) (.base light) (1/2)).scatter s)| < 1/100000
        then none
        else some ((Pdf.mix (.base diffuse) (.base light) (1/2)).scatter s)) := by
  refine ⟨?_, ?_, ?_⟩
  · unfold Pdf.pdf
    split_ifs with h
    · simpa using h
    · simpa using h
  all_goals
    unfold shadeDiffuse Pdf.pdf
    by_cases h : |(Pdf.mix (.base diffuse) (.base light) (1/2)).pdf_impl
        ((Pdf.mix (.base diffuse) (.base light) (1/2)).scatter s)| < 1/100000
  all_goals simp only [h, if_pos, if_neg, if_true, if_false]

/-- Claim C6: `Pdf::Mix(a, b, w).scatter` consumes one uniform draw and
samples `b` exactly when the draw lands in `[0, w)` (an event of Lebesgue
measure `w`, its complement in the unit interval having measure `1 - w`),
and the mixture's density at every ray is the linear interpolation
`(1 - w) * density_a + w * density_b` with the same weight `w`, regardless
of which branch the coin took. -/
theorem c6_mix_coin_blend {R : Type} (a b : Pdf R) (w : ℚ) (s : ℕ → ℚ) (ray : R) :
    ((Pdf.mix a b w).scatter s =
        if genBool w (s 0) then b.scatter (streamTail s) else a.scatter (streamTail s)) ∧
      ({u : ℚ | 0 ≤ u ∧ genBool w u = true} = Set.Ico (0 : ℚ) w) ∧
      (MeasureTheory.volume (Set.Ico (0 : ℝ) ((w : ℚ) : ℝ)) = ENNReal.ofReal (w : ℝ) ∧
        MeasureTheory.volume (Set.Ico ((w : ℚ) : ℝ) 1) = ENNReal.ofReal (1 - (w : ℝ))) ∧
      ((Pdf.mix a b w).pdf_impl ray =
        (1 - w) * a.pdf_impl ray + w * b.pdf_impl ray) := by
  refine ⟨rfl, ?_, ⟨?_, ?_⟩, ?_⟩
  · ext u
    simp [genBool, Set.mem_Ico, and_comm]
  · rw [Real.volume_Ico, sub_zero]
  · rw [Real.volume_Ico]
  · rw [show (Pdf.mix a b w).pdf_impl ray = lerp (a.pdf_impl ray) (b.pdf_impl ray) w
      from rfl]
    unfold lerp
    ring

/-! ## Diffuse light selection (`Surface::shade`, `src/material/surface.rs`,
lines 55–66) and claim C10 -/

/-- The `bvh.iter().filter(|object| object.has_flags(ObjectFlags::LIGHT))`
enumeration of `Surface::shade`. -/
def lightsOf (b : Bvh) : List ObjectData :=
  b.iterList.filter (fun o => o.has_flags LIGHT)

/-- `rng.sample(Uniform::new(0, count))`: `Uniform::new(low, high)` panics
when `low >= high` — modelled as `none` for `count = 0` — and otherwise
yields an index uniformly in `[0, count)`, modelled by reducing an arbitrary
draw `u` modulo `count`. -/
def uniformSample (count u : ℕ) : Option ℕ :=
  if count = 0 then none else some (u % count)

/-- The light-selection slice of the `Diffuse` arm of `Surface::shade`:
count the LIGHT-flagged objects, sample an index with
`Uniform::new(0, count)`, and take the `index`-th filtered object
(`.nth(index)`, whose `.unwrap()` panics exactly when it is `None`).
`none` models a panic of either step. -/
def selectLight (b : Bvh) (u : ℕ) : Option ObjectData :=
  match uniformSample (lightsOf b).length u with
  | some i => (lightsOf b)[i]?
  | none => none

/-- Claim C10: the `Diffuse` light selection panics exactly when the BVH
holds no object with the LIGHT flag (`Uniform::new(0, 0)` is invalid); when
at least one light is present, the sampled index is in range for every draw,
so the selection — including the `.nth(index).unwrap()` — never panics. -/
theorem c10_light_selection (b : Bvh) (u : ℕ) :
    (selectLight b u = none ↔ lightsOf b = []) ∧
      (selectLight b u).isSome = !(lightsOf b).isEmpty := by
  unfold selectLight uniformSample
  cases hl : lightsOf b with
  | nil => simp
  | cons o rest =>
    have hlen : u % (o :: rest).length < (o :: rest).length :=
      Nat.mod_lt _ (by simp)
    rw [if_neg (by simp)]
    simp only [List.isEmpty_cons, Bool.not_false]
    rw [List.getElem?_eq_getElem hlen]
    simp

end BendyTracer
